import Mathlib

/-!
Verification development for the member-sorting core of the
`prettier-plugin-sort-members` repository.

The embedding follows `src/lib/comparator/data-dependency.ts` (dependency
extraction, transitive closure, name resolution, the data-dependency
comparator) and the `preprocess` rewrite callback of the plugin entry file.
Syntax-tree nodes are modelled as a closed inductive type covering exactly
the node kinds the source inspects; every node kind the source does not
recognize is represented by constructors that fall through to the default
(leaf) case, mirroring the source's `switch` statements.

JavaScript strings are modelled as Lean `String`; the default
`Array.prototype.sort()` order on strings (lexicographic by code unit) is
modelled by an explicit lexicographic order on the character data, and the
one place the source uses `endsWith('?')` / `slice(0, -1)` is modelled by
the corresponding operations on the character list.
-/

namespace SortMembers

/-- Lexicographic comparison of character data, modelling the default
JavaScript string order used by `Array.prototype.sort()`. -/
def lexLe : List Char → List Char → Bool
  | [], _ => true
  | _ :: _, [] => false
  | a :: as, b :: bs =>
    if a.toNat < b.toNat then true
    else if b.toNat < a.toNat then false
    else lexLe as bs

/-- String order used by the JS `sort()` in the closure's per-entry sort. -/
def strLe (a b : String) : Bool := lexLe a.data b.data

/-- `strLe` as a relation, for use with Mathlib's sorting machinery. -/
def strRel (a b : String) : Prop := strLe a b = true

instance : DecidableRel strRel := fun a b => inferInstanceAs (Decidable (strLe a b = true))

/-- First-occurrence deduplication, modelling the `seen`-hash filter in the
transitive-closure pass of `extractDependencies`. -/
def dedupFirstAux : List String → List String → List String
  | [], _ => []
  | x :: xs, seen => if x ∈ seen then dedupFirstAux xs seen else x :: dedupFirstAux xs (x :: seen)

/-- `with_transitives.filter(...)` with a `seen` map: keep first occurrences. -/
def dedupFirst (l : List String) : List String := dedupFirstAux l []

/-- `.sort()` on a string array (default lexicographic comparator). -/
def sortStrings (l : List String) : List String := l.insertionSort strRel

/-- Literal values that can appear as a member key (`Literal.value`). -/
inductive LitVal where
  | str (s : String)
  | num (n : Int)
  | bool (b : Bool)
  | null
deriving DecidableEq

/-- The `key` field of a member-like node.  `privateName id` models a Babel
`PrivateName` node whose `id` is an `Identifier` named `id` (or `none` when
the `id` is not an identifier); `stringLiteral` models a Babel
`StringLiteral` key. -/
inductive Key where
  | identifier (name : String)
  | privateIdentifier (name : String)
  | literal (v : LitVal)
  | privateName (id : Option String)
  | stringLiteral (value : String)
  | otherKey
deriving DecidableEq

/-- Syntax nodes, restricted to the shapes `extractDependencies`,
`extractName` and the `preprocess` rewrite callback inspect.  The three
declaration-body constructors carry an `extra : Nat` field standing for all
node fields other than the member list (`range`, `loc`, ...), so that the
frame property of the rewrite callback is expressible.  Constructors such
as `methodDefinition`, `functionExpression`, `returnStatement`,
`literalExpr` and `other` are node kinds that the traversal `switch` does
not name: they fall through to its default (leaf) case. -/
inductive Node where
  | tsInterfaceBody (body : List Node) (extra : Nat)
  | classBody (body : List Node) (extra : Nat)
  | tsTypeLiteral (members : List Node) (extra : Nat)
  | objectExpression (properties : List Node)
  | propertyDefinition (key : Key) (computed : Bool) (value : Option Node)
  | property (key : Key) (computed : Bool) (value : Option Node)
  | methodDefinition (key : Key) (computed : Bool) (value : Option Node)
  | arrayExpression (elements : List (Option Node))
  | callExpression (callee : Node) (args : List Node)
  | memberExpression (object : Node) (prop : Node)
  | thisExpression
  | identifier (name : String)
  | chainExpression (expr : Node)
  | tsAsExpression (expr : Node)
  | functionExpression (body : List Node)
  | returnStatement (arg : Option Node)
  | literalExpr (v : LitVal)
  | other

/-- The `"key" in $` test together with the key and `computed` fields: only
member-like node kinds carry a key. -/
def keyOf : Node → Option (Key × Bool)
  | .propertyDefinition k c _ => some (k, c)
  | .property k c _ => some (k, c)
  | .methodDefinition k c _ => some (k, c)
  | _ => none

/-- `extractName` from `data-dependency.ts`: resolve a member-like node to
its textual name, or `none` (the source's `undefined`). -/
def extractName (n : Node) : Option String :=
  match keyOf n with
  | none => none
  | some (k, c) =>
    match k with
    | .identifier s => if c then none else some s
    | .privateIdentifier s => if c then none else some s
    | .literal (.str s) => some s
    | .literal _ => none
    | .privateName (some s) => some s
    | .privateName none => none
    | .stringLiteral s => some s
    | .otherKey => none

/-- The `DataDependencyMap`: a JS object, modelled as an association list
preserving key-insertion order. -/
def DepMap : Type := List (String × List String)

instance : DecidableEq DepMap := inferInstanceAs (DecidableEq (List (String × List String)))

/-- Object property read `map[k]` (`undefined` as `none`). -/
def getDeps : DepMap → String → Option (List String)
  | [], _ => none
  | (k', v) :: rest, k => if k' = k then some v else getDeps rest k

/-- `map[k]` read defaulting to the empty set (missing key reads as no
dependencies, as in the comparator and the closure's `map[d]` lookup). -/
def entry (m : DepMap) (k : String) : List String := (getDeps m k).getD []

/-- Assignment `map[k] = v` to an existing key (the closure only assigns
keys that are already present). -/
def setDeps : DepMap → String → List String → DepMap
  | [], _, _ => []
  | (k', v') :: rest, k, v => if k' = k then (k', v) :: rest else (k', v') :: setDeps rest k v

/-- `deps.push(dep_name)` preceded by `map[parent] = []` when absent:
append to an existing entry, or create the key at the end (JS object
insertion order). -/
def pushDep : DepMap → String → String → DepMap
  | [], p, d => [(p, [d])]
  | (k, v) :: rest, p, d => if k = p then (k, v ++ [d]) :: rest else (k, v) :: pushDep rest p d

/-- `Object.keys(map)`. -/
def keysOf (m : DepMap) : List String := m.map Prod.fst

/-- `dep_name.endsWith('?')`. -/
def endsWithOptMark (s : String) : Bool :=
  match s.data.getLast? with
  | some c => c = '?'
  | none => false

/-- Strip a single trailing `?` (`dep_name.slice(0, -1)`). -/
def stripOptMark (s : String) : String :=
  if endsWithOptMark s then String.mk s.data.dropLast else s

/-- JS truthiness of an optional string (`undefined` and `""` are falsy). -/
def strTruthy : Option String → Bool
  | some s => !(s == "")
  | none => false

/-- `cur.parent || extractName(cur.node)`. -/
def parentOr (p : Option String) (q : Option String) : Option String :=
  if strTruthy p then p else q

/-- A `DependencyQueueEntry`. -/
structure QEntry where
  parent : Option String
  node : Option Node

/-- `queueEntryMapper(cur)(n)`: tag a child with the nearest enclosing
member name. -/
def childEntry (parent : Option String) (cur : Node) (n : Option Node) : QEntry :=
  ⟨parentOr parent (extractName cur), n⟩

/-- One iteration of the traversal `while` loop body, for a dequeued entry
whose node is non-null: the (possibly) updated map together with the
entries pushed onto the queue.  Follows the `switch` in
`extractDependencies` case by case; unrecognized node kinds fall through
to the default (no update, no children). -/
def stepEntry (parent : Option String) (n : Node) (m : DepMap) : DepMap × List QEntry :=
  match n with
  | .tsInterfaceBody body _ => (m, body.map (fun b => childEntry parent n (some b)))
  | .classBody body _ => (m, body.map (fun b => childEntry parent n (some b)))
  | .tsTypeLiteral mems _ => (m, mems.map (fun b => childEntry parent n (some b)))
  | .objectExpression props => (m, props.map (fun b => childEntry parent n (some b)))
  | .propertyDefinition _ _ v =>
    match v with
    | some vn => (m, [childEntry parent n (some vn)])
    | none => (m, [])
  | .property _ _ v =>
    match v with
    | some vn => (m, [childEntry parent n (some vn)])
    | none => (m, [])
  | .arrayExpression els => (m, els.map (fun el => childEntry parent n el))
  | .callExpression callee args =>
    let fromCallee :=
      match callee with
      | .memberExpression obj _ => [childEntry parent n (some obj)]
      | _ => []
    (m, fromCallee ++ args.map (fun a => childEntry parent n (some a)))
  | .memberExpression obj p =>
    match p with
    | .identifier pname =>
      match obj with
      | .thisExpression =>
        (match parent with
         | some par => if par = "" then (m, []) else (pushDep m par (stripOptMark pname), [])
         | none => (m, []))
      | .memberExpression o2 p2 =>
        (m, [⟨parentOr parent (extractName n), some (.memberExpression o2 p2)⟩])
      | _ => (m, [])
    | _ => (m, [])
  | .chainExpression ex => (m, [childEntry parent n (some ex)])
  | .tsAsExpression ex => (m, [childEntry parent n (some ex)])
  | _ => (m, [])

mutual

/-- Structural size of a node, used only as traversal fuel. -/
def nodeSize : Node → Nat
  | .tsInterfaceBody body _ => 1 + nodeListSize body
  | .classBody body _ => 1 + nodeListSize body
  | .tsTypeLiteral mems _ => 1 + nodeListSize mems
  | .objectExpression props => 1 + nodeListSize props
  | .propertyDefinition _ _ v => 1 + optNodeSize v
  | .property _ _ v => 1 + optNodeSize v
  | .methodDefinition _ _ v => 1 + optNodeSize v
  | .arrayExpression els => 1 + optListSize els
  | .callExpression callee args => 1 + nodeSize callee + nodeListSize args
  | .memberExpression o p => 1 + nodeSize o + nodeSize p
  | .chainExpression e => 1 + nodeSize e
  | .tsAsExpression e => 1 + nodeSize e
  | .functionExpression body => 1 + nodeListSize body
  | .returnStatement a => 1 + optNodeSize a
  | .thisExpression => 1
  | .identifier _ => 1
  | .literalExpr _ => 1
  | .other => 1

/-- Size of a node list: one unit per slot plus the nodes' sizes. -/
def nodeListSize : List Node → Nat
  | [] => 0
  | x :: xs => 1 + nodeSize x + nodeListSize xs

/-- Size of an optional node. -/
def optNodeSize : Option Node → Nat
  | none => 0
  | some x => nodeSize x

/-- Size of a list of optional nodes. -/
def optListSize : List (Option Node) → Nat
  | [] => 0
  | x :: xs => 1 + optNodeSize x + optListSize xs

end

/-- Weight of a queue entry, used as traversal fuel. -/
def entryWeight (e : QEntry) : Nat :=
  match e.node with
  | none => 1
  | some n => 1 + nodeSize n

/-- Total weight of a queue. -/
def qWeight (q : List QEntry) : Nat := (q.map entryWeight).sum

/-- The breadth-first traversal loop of `extractDependencies` (queue of
`DependencyQueueEntry`, `shift` from the front, `push` to the back).  The
fuel parameter is a termination device only: `rawDeps` runs the loop with
fuel `qWeight` of the initial queue, which is proved sufficient
(`extractLoopF_fuel_invariant`), so the definition computes the full,
untruncated traversal. -/
def extractLoopF : Nat → DepMap → List QEntry → DepMap
  | 0, m, _ => m
  | _ + 1, m, [] => m
  | fuel + 1, m, e :: q =>
    match e.node with
    | none => extractLoopF fuel m q
    | some n =>
      let (m', cs) := stepEntry e.parent n m
      extractLoopF fuel m' (q ++ cs)

/-- The raw (pre-closure) dependency mapping of one declaration node. -/
def rawDeps (n : Node) : DepMap :=
  extractLoopF (1 + nodeSize n) [] [⟨none, some n⟩]

/-- `with_transitives` for key `k`: the entry with its direct dependencies'
entries concatenated, deduplicated and sorted. -/
def wtOf (m : DepMap) (k : String) : List String :=
  let v := entry m k
  sortStrings (dedupFirst (v ++ (v.map (fun d => entry m d)).flatten))

/-- The closure loop body for one key `k`: compare `with_transitives`
against the (in-place sorted) original entry, store the new value, and
report whether it changed. -/
def stepKey (m : DepMap) (k : String) : DepMap × Bool :=
  let v := entry m k
  let wt := wtOf m k
  let origSorted := sortStrings v
  if wt = origSorted then (setDeps m k origSorted, false) else (setDeps m k wt, true)

/-- One full pass of the closure's `for (const k of keys)` loop. -/
def foldKeys : List String → DepMap × Bool → DepMap × Bool
  | [], acc => acc
  | k :: ks, (m, b) =>
    let (m', c) := stepKey m k
    foldKeys ks (m', b || c)

/-- One pass of the `do ... while (modified)` loop, over the key list
captured before the loop (which every pass preserves). -/
def closeOnce (m : DepMap) : DepMap × Bool := foldKeys (keysOf m) (m, false)

/-- The `do ... while (modified)` loop.  As with traversal, the fuel is
only a termination device; `m.length + 1` passes are proved sufficient to
reach the loop's fixed point. -/
def closeLoop : Nat → DepMap → DepMap
  | 0, m => m
  | fuel + 1, m =>
    match closeOnce m with
    | (m', true) => closeLoop fuel m'
    | (m', false) => m'

/-- The transitive-closure phase of `extractDependencies`. -/
def transitiveClosure (m : DepMap) : DepMap := closeLoop (m.length + 1) m

/-- `extractDependencies`: traversal followed by transitive closure. -/
def extractDependencies (n : Node) : DepMap := transitiveClosure (rawDeps n)

/-- The closure pass iterated `j` times (ignoring the modified flag). -/
def passIter : Nat → DepMap → DepMap
  | 0, m => m
  | j + 1, m => (closeOnce (passIter j m)).1

/-- `m` is a fixed point of the closure pass: one more pass returns the
map unchanged and reports no modification, so the `do ... while` loop
stops. -/
def Fixed (m : DepMap) : Prop := closeOnce m = (m, false)

/-- Every entry is sorted and already transitively closed:
`with_transitives` recomputes the entry itself. -/
def Stable (m : DepMap) : Prop :=
  ∀ k ∈ keysOf m, List.Sorted strRel (entry m k) ∧ wtOf m k = entry m k

/-- The dependency edges of a raw mapping, as a relation. -/
def relOf (m : DepMap) (x y : String) : Prop := y ∈ entry m x

/-- Reachability in at most `n` steps along `relOf`. -/
def reachN (m : DepMap) : Nat → String → String → Prop
  | 0, _, _ => False
  | n + 1, k, y => relOf m k y ∨ ∃ d, relOf m k d ∧ reachN m n d y

/-- Paths along `relOf`: `isPath m k ds y` means the edges
`k → ds₀ → ds₁ → ... → y` all exist. -/
def isPath (m : DepMap) : String → List String → String → Prop
  | k, [], y => relOf m k y
  | k, d :: ds, y => relOf m k d ∧ isPath m d ds y

/-- `m` (an evolving closure state) only contains edges that hold in the
transitive closure of the raw mapping `m₀`. -/
def Sound (m₀ m : DepMap) : Prop :=
  ∀ k y, y ∈ entry m k → Relation.TransGen (relOf m₀) k y

/-- Every dependency recorded in the raw mapping `m₀` is still recorded
in the evolving state `m`. -/
def GrowsFrom (m₀ m : DepMap) : Prop :=
  ∀ k y, y ∈ entry m₀ k → y ∈ entry m k

/-- The three-way comparison result (`Order` in `comparator.ts`).
Modelled from the spec: `comparator.ts` is not part of the provided
source; the spec specifies a three-way comparator outcome
Less / Equal / Greater. -/
inductive Order where
  | less
  | equal
  | greater
deriving DecidableEq

/-- The key object built by the first argument of `C.by` in
`dataDependency`: the member's resolved name and its dependency set. -/
structure DepInfo where
  name : Option String
  dependencies : List String
deriving DecidableEq

/-- The key-extraction function passed to `C.by` by `dataDependency`:
resolve the name; when it is truthy, look its dependency set up in the
mapping (defaulting to empty). -/
def dataDependencyKey (m : DepMap) (n : Node) : DepInfo :=
  match extractName n with
  | some s => if s = "" then ⟨some "", []⟩ else ⟨some s, (getDeps m s).getD []⟩
  | none => ⟨none, []⟩

/-- Membership test `deps.indexOf(name!) !== -1` where `name` is optional:
`indexOf(undefined)` on a string array is `-1`. -/
def nameInDeps (name : Option String) (deps : List String) : Bool :=
  match name with
  | some s => deps.contains s
  | none => false

/-- The comparison function passed to `C.by` by `dataDependency`,
exactly as written in the source (including the two `<=` size checks). -/
def dataDependencyCmp (a b : DepInfo) : Order :=
  if a.dependencies.length = 0 ∧ b.dependencies.length = 0 then .equal
  else if nameInDeps b.name a.dependencies then .greater
  else if nameInDeps a.name b.dependencies then .less
  else if a.dependencies.length ≤ b.dependencies.length then .less
  else if b.dependencies.length ≤ a.dependencies.length then .greater
  else .equal

/-- The full `dataDependency` comparator over nodes.  Modelled from the
spec: `C.by(f, cmp)` (from the missing `comparator.ts`) compares two nodes
by applying `cmp` to their extracted keys. -/
def dataDependency (m : DepMap) (a b : Node) : Order :=
  dataDependencyCmp (dataDependencyKey m a) (dataDependencyKey m b)

/-- Does the rewrite callback recognize this node kind? -/
def isDeclBody : Node → Bool
  | .tsInterfaceBody _ _ => true
  | .classBody _ _ => true
  | .tsTypeLiteral _ _ => true
  | _ => false

/-- The rewrite callback that `preprocess` hands to `visit`.  Modelled from
the spec where it depends on missing source: the member-list sorter
(`body.slice().sort(C.capture(memberNodes, comparator(options,
extractDependencies(node))))`, whose `visit`, `C.capture` and `comparator`
live outside the provided source) is abstracted as a function `sorter`
from the declaration node and its original member list to the reordered
member list.  For the three recognized kinds the callback returns a copy
with only the member-list field replaced; every other node is returned
unchanged. -/
def rewriteCallback (sorter : Node → List Node → List Node) : Node → Node
  | .tsInterfaceBody body extra =>
    .tsInterfaceBody (sorter (.tsInterfaceBody body extra) body) extra
  | .classBody body extra =>
    .classBody (sorter (.classBody body extra) body) extra
  | .tsTypeLiteral mems extra =>
    .tsTypeLiteral (sorter (.tsTypeLiteral mems extra) mems) extra
  | n => n

/-- Example from the spec (§8): `[ c() { return this.a }, a = 1, b = this.c ]`. -/
def exMethodChain : Node :=
  .classBody
    [ .methodDefinition (.identifier "c") false
        (some (.functionExpression
          [.returnStatement (some (.memberExpression .thisExpression (.identifier "a")))])),
      .propertyDefinition (.identifier "a") false (some (.literalExpr (.num 1))),
      .propertyDefinition (.identifier "b") false
        (some (.memberExpression .thisExpression (.identifier "c"))) ] 0

/-- A class body whose single member reads its own name: `a = this.a`. -/
def exSelfDep : Node :=
  .classBody
    [ .propertyDefinition (.identifier "a") false
        (some (.memberExpression .thisExpression (.identifier "a"))) ] 0

/-- A two-step chain: `a = this.b, b = this.c`. -/
def exChainTwo : Node :=
  .classBody
    [ .propertyDefinition (.identifier "a") false
        (some (.memberExpression .thisExpression (.identifier "b"))),
      .propertyDefinition (.identifier "b") false
        (some (.memberExpression .thisExpression (.identifier "c"))) ] 0

/-- A class body with a single plain member `b = this.c` (acyclic). -/
def exOneEdge : Node :=
  .classBody
    [ .propertyDefinition (.identifier "b") false
        (some (.memberExpression .thisExpression (.identifier "c"))) ] 0

/-! ### Properties of the string order -/

theorem lexLe_nil_left (b : List Char) : lexLe [] b = true := by
  cases b <;> rfl

theorem lexLe_total : ∀ a b : List Char, lexLe a b = true ∨ lexLe b a = true := by
  intro a
  induction a with
  | nil => intro b; left; exact lexLe_nil_left b
  | cons x xs ih =>
    intro b
    cases b with
    | nil => right; exact lexLe_nil_left _
    | cons y ys =>
      by_cases h1 : x.toNat < y.toNat
      · left; simp [lexLe, h1]
      · by_cases h2 : y.toNat < x.toNat
        · right; simp [lexLe, h1, h2]
        · rcases ih ys with h | h
          · left; simp [lexLe, h1, h2, h]
          · right; simp [lexLe, h1, h2, h]

theorem lexLe_trans : ∀ a b c : List Char,
    lexLe a b = true → lexLe b c = true → lexLe a c = true := by
  intro a
  induction a with
  | nil => intro b c _ _; exact lexLe_nil_left c
  | cons x xs ih =>
    intro b c hab hbc
    cases b with
    | nil => simp [lexLe] at hab
    | cons y ys =>
      cases c with
      | nil => simp [lexLe] at hbc
      | cons z zs =>
        by_cases hxy : x.toNat < y.toNat
        · by_cases hyz : y.toNat < z.toNat
          · have : x.toNat < z.toNat := Nat.lt_trans hxy hyz
            simp [lexLe, this]
          · by_cases hzy : z.toNat < y.toNat
            · simp [lexLe, hyz, hzy] at hbc
            · have hyz' : y.toNat = z.toNat := Nat.le_antisymm (Nat.le_of_not_lt hzy) (Nat.le_of_not_lt hyz)
              have : x.toNat < z.toNat := hyz' ▸ hxy
              simp [lexLe, this]
        · by_cases hyx : y.toNat < x.toNat
          · simp [lexLe, hxy, hyx] at hab
          · have hxy' : x.toNat = y.toNat := Nat.le_antisymm (Nat.le_of_not_lt hyx) (Nat.le_of_not_lt hxy)
            simp [lexLe, hxy, hyx] at hab
            by_cases hyz : y.toNat < z.toNat
            · have : x.toNat < z.toNat := hxy' ▸ hyz
              simp [lexLe, this]
            · by_cases hzy : z.toNat < y.toNat
              · simp [lexLe, hyz, hzy] at hbc
              · simp [lexLe, hyz, hzy] at hbc
                have hxz : ¬ x.toNat < z.toNat := by omega
                have hzx : ¬ z.toNat < x.toNat := by omega
                simp [lexLe, hxz, hzx]
                exact ih ys zs hab hbc

theorem char_eq_of_toNat_eq {x y : Char} (h : x.toNat = y.toNat) : x = y :=
  Char.eq_of_val_eq (UInt32.ext h)

theorem lexLe_antisymm : ∀ a b : List Char,
    lexLe a b = true → lexLe b a = true → a = b := by
  intro a
  induction a with
  | nil =>
    intro b _ hba
    cases b with
    | nil => rfl
    | cons y ys => simp [lexLe] at hba
  | cons x xs ih =>
    intro b hab hba
    cases b with
    | nil => simp [lexLe] at hab
    | cons y ys =>
      by_cases hxy : x.toNat < y.toNat
      · have hyx : ¬ y.toNat < x.toNat := by omega
        simp [lexLe, hyx, hxy] at hba
      · by_cases hyx : y.toNat < x.toNat
        · simp [lexLe, hxy, hyx] at hab
        · simp [lexLe, hxy, hyx] at hab
          simp [lexLe, hxy, hyx] at hba
          have hx : x = y := char_eq_of_toNat_eq (by omega)
          rw [hx, ih ys hab hba]

instance : IsTotal String strRel :=
  ⟨fun a b => lexLe_total a.data b.data⟩

instance : IsTrans String strRel :=
  ⟨fun a b c hab hbc => lexLe_trans a.data b.data c.data hab hbc⟩

theorem string_eq_of_data_eq {a b : String} (h : a.data = b.data) : a = b := by
  cases a; cases b; cases h; rfl

instance : IsAntisymm String strRel :=
  ⟨fun a b hab hba => string_eq_of_data_eq (lexLe_antisymm a.data b.data hab hba)⟩

/-! ### Deduplication and sorting lemmas -/

theorem mem_dedupFirstAux : ∀ (l seen : List String) (x : String),
    x ∈ dedupFirstAux l seen ↔ (x ∈ l ∧ x ∉ seen) := by
  intro l
  induction l with
  | nil => intro seen x; simp [dedupFirstAux]
  | cons a as ih =>
    intro seen x
    by_cases h : a ∈ seen
    · rw [dedupFirstAux, if_pos h, ih]
      constructor
      · rintro ⟨hx, hs⟩; exact ⟨List.mem_cons_of_mem _ hx, hs⟩
      · rintro ⟨hx, hs⟩
        rcases List.mem_cons.mp hx with h1 | h1
        · subst h1; exact absurd h hs
        · exact ⟨h1, hs⟩
    · rw [dedupFirstAux, if_neg h]
      constructor
      · intro hx
        rcases List.mem_cons.mp hx with h1 | h1
        · subst h1; exact ⟨List.mem_cons_self _ _, h⟩
        · rcases (ih _ _).mp h1 with ⟨h2, h3⟩
          exact ⟨List.mem_cons_of_mem _ h2, fun hc => h3 (List.mem_cons_of_mem _ hc)⟩
      · rintro ⟨hx, hs⟩
        rcases List.mem_cons.mp hx with h1 | h1
        · subst h1; exact List.mem_cons_self _ _
        · by_cases hxa : x = a
          · subst hxa; exact List.mem_cons_self _ _
          · refine List.mem_cons_of_mem _ ((ih _ _).mpr ⟨h1, fun hc => ?_⟩)
            rcases List.mem_cons.mp hc with h2 | h2
            · exact hxa h2
            · exact hs h2

theorem nodup_dedupFirstAux : ∀ (l seen : List String), (dedupFirstAux l seen).Nodup := by
  intro l
  induction l with
  | nil => intro seen; simp [dedupFirstAux]
  | cons a as ih =>
    intro seen
    by_cases h : a ∈ seen
    · rw [dedupFirstAux, if_pos h]; exact ih seen
    · rw [dedupFirstAux, if_neg h]
      refine List.nodup_cons.mpr ⟨?_, ih (a :: seen)⟩
      intro hmem
      exact ((mem_dedupFirstAux as (a :: seen) a).mp hmem).2 (List.mem_cons_self a seen)

theorem mem_dedupFirst (l : List String) (x : String) : x ∈ dedupFirst l ↔ x ∈ l := by
  rw [dedupFirst, mem_dedupFirstAux]
  simp

theorem nodup_dedupFirst (l : List String) : (dedupFirst l).Nodup :=
  nodup_dedupFirstAux l []

theorem mem_sortStrings (l : List String) (x : String) : x ∈ sortStrings l ↔ x ∈ l :=
  (List.perm_insertionSort strRel l).mem_iff

theorem sorted_sortStrings (l : List String) : List.Sorted strRel (sortStrings l) :=
  List.sorted_insertionSort strRel l

theorem nodup_sortStrings {l : List String} (h : l.Nodup) : (sortStrings l).Nodup :=
  (List.perm_insertionSort strRel l).nodup_iff.mpr h

theorem sortStrings_eq_self_of_sorted {l : List String} (h : List.Sorted strRel l) :
    sortStrings l = l :=
  List.eq_of_perm_of_sorted (List.perm_insertionSort strRel l) (sorted_sortStrings l) h

/-- Two sorted, duplicate-free string lists with the same members
are equal. -/
theorem sorted_nodup_ext {l₁ l₂ : List String}
    (s₁ : List.Sorted strRel l₁) (s₂ : List.Sorted strRel l₂)
    (n₁ : l₁.Nodup) (n₂ : l₂.Nodup)
    (h : ∀ x, x ∈ l₁ ↔ x ∈ l₂) : l₁ = l₂ :=
  List.eq_of_perm_of_sorted ((List.perm_ext_iff_of_nodup n₁ n₂).mpr h) s₁ s₂

/-- The canonical form `sortStrings (dedupFirst l)` depends only on the
members of `l`. -/
theorem canon_eq_of_same_mem {l l' : List String}
    (h : ∀ x, x ∈ l ↔ x ∈ l') :
    sortStrings (dedupFirst l) = sortStrings (dedupFirst l') := by
  refine sorted_nodup_ext (sorted_sortStrings _) (sorted_sortStrings _)
    (nodup_sortStrings (nodup_dedupFirst _)) (nodup_sortStrings (nodup_dedupFirst _)) ?_
  intro x
  rw [mem_sortStrings, mem_sortStrings, mem_dedupFirst, mem_dedupFirst]
  exact h x

/-! ### Basic mapping lemmas -/

theorem keysOf_nil : keysOf [] = [] := rfl

theorem keysOf_cons (k : String) (v : List String) (m : DepMap) :
    keysOf ((k, v) :: m) = k :: keysOf m := rfl

theorem getDeps_some_mem_keys : ∀ {m : DepMap} {k : String} {v : List String},
    getDeps m k = some v → k ∈ keysOf m := by
  intro m
  induction m with
  | nil => intro k v h; simp [getDeps] at h
  | cons p rest ih =>
    intro k v h
    rcases p with ⟨k', v'⟩
    rw [getDeps] at h
    by_cases hk : k' = k
    · rw [keysOf_cons]; exact hk ▸ List.mem_cons_self _ _
    · rw [if_neg hk] at h
      exact List.mem_cons_of_mem _ (ih h)

theorem getDeps_none_of_not_mem : ∀ {m : DepMap} {k : String},
    k ∉ keysOf m → getDeps m k = none := by
  intro m
  induction m with
  | nil => intro k _; rfl
  | cons p rest ih =>
    intro k h
    rcases p with ⟨k', v'⟩
    rw [keysOf_cons] at h
    rw [getDeps, if_neg (fun hk => h (List.mem_cons.mpr (Or.inl hk.symm)))]
    exact ih (fun hk => h (List.mem_cons_of_mem _ hk))

theorem entry_eq_nil_of_not_mem {m : DepMap} {k : String} (h : k ∉ keysOf m) :
    entry m k = [] := by
  rw [entry, getDeps_none_of_not_mem h]; rfl

theorem keysOf_setDeps : ∀ (m : DepMap) (k : String) (v : List String),
    keysOf (setDeps m k v) = keysOf m := by
  intro m
  induction m with
  | nil => intro k v; rfl
  | cons p rest ih =>
    intro k v
    rcases p with ⟨k', v'⟩
    rw [setDeps]
    by_cases hk : k' = k
    · rw [if_pos hk, keysOf_cons, keysOf_cons]
    · rw [if_neg hk, keysOf_cons, keysOf_cons, ih]

theorem getDeps_setDeps_self : ∀ {m : DepMap} {k : String} (v : List String),
    k ∈ keysOf m → getDeps (setDeps m k v) k = some v := by
  intro m
  induction m with
  | nil => intro k v h; simp [keysOf] at h
  | cons p rest ih =>
    intro k v h
    rcases p with ⟨k', v'⟩
    rw [setDeps]
    by_cases hk : k' = k
    · rw [if_pos hk, getDeps, if_pos hk]
    · rw [if_neg hk, getDeps, if_neg hk]
      rw [keysOf_cons] at h
      rcases List.mem_cons.mp h with h1 | h1
      · exact absurd h1.symm hk
      · exact ih v h1

theorem getDeps_setDeps_ne : ∀ (m : DepMap) {k k' : String} (v : List String),
    k' ≠ k → getDeps (setDeps m k v) k' = getDeps m k' := by
  intro m
  induction m with
  | nil => intro k k' v _; rfl
  | cons p rest ih =>
    intro k k' v hne
    rcases p with ⟨k'', v''⟩
    rw [setDeps]
    by_cases hk : k'' = k
    · rw [if_pos hk, getDeps, getDeps, if_neg (fun h => hne (h.symm.trans hk)),
        if_neg (fun h => hne (h.symm.trans hk))]
    · rw [if_neg hk, getDeps, getDeps]
      by_cases hk' : k'' = k'
      · rw [if_pos hk', if_pos hk']
      · rw [if_neg hk', if_neg hk', ih _ hne]

theorem entry_setDeps_self {m : DepMap} {k : String} (v : List String)
    (h : k ∈ keysOf m) : entry (setDeps m k v) k = v := by
  rw [entry, getDeps_setDeps_self v h]; rfl

theorem entry_setDeps_ne (m : DepMap) {k k' : String} (v : List String)
    (h : k' ≠ k) : entry (setDeps m k v) k' = entry m k' := by
  rw [entry, getDeps_setDeps_ne m v h]; rfl

theorem setDeps_self : ∀ {m : DepMap} {k : String} {v : List String},
    getDeps m k = some v → setDeps m k v = m := by
  intro m
  induction m with
  | nil => intro k v h; simp [getDeps] at h
  | cons p rest ih =>
    intro k v h
    rcases p with ⟨k', v'⟩
    rw [getDeps] at h
    rw [setDeps]
    by_cases hk : k' = k
    · rw [if_pos hk] at h ⊢
      cases h with
      | refl => rfl
    · rw [if_neg hk] at h ⊢
      rw [ih h]

theorem keysOf_pushDep_mem : ∀ {m : DepMap} {p : String} (d : String),
    p ∈ keysOf m → keysOf (pushDep m p d) = keysOf m := by
  intro m
  induction m with
  | nil => intro p d h; simp [keysOf] at h
  | cons q rest ih =>
    intro p d h
    rcases q with ⟨k, v⟩
    rw [pushDep]
    by_cases hk : k = p
    · rw [if_pos hk, keysOf_cons, keysOf_cons]
    · rw [if_neg hk, keysOf_cons, keysOf_cons]
      rw [keysOf_cons] at h
      rcases List.mem_cons.mp h with h1 | h1
      · exact absurd h1.symm hk
      · rw [ih d h1]

theorem keysOf_pushDep_not_mem : ∀ {m : DepMap} {p : String} (d : String),
    p ∉ keysOf m → keysOf (pushDep m p d) = keysOf m ++ [p] := by
  intro m
  induction m with
  | nil => intro p d _; rfl
  | cons q rest ih =>
    intro p d h
    rcases q with ⟨k, v⟩
    rw [keysOf_cons] at h
    rw [pushDep, if_neg (fun hk => h (List.mem_cons.mpr (Or.inl hk.symm))), keysOf_cons,
      keysOf_cons, ih d (fun hk => h (List.mem_cons_of_mem _ hk))]
    rfl

theorem nodup_keys_pushDep {m : DepMap} {p d : String}
    (h : (keysOf m).Nodup) : (keysOf (pushDep m p d)).Nodup := by
  by_cases hp : p ∈ keysOf m
  · rw [keysOf_pushDep_mem d hp]; exact h
  · rw [keysOf_pushDep_not_mem d hp]
    refine List.Nodup.append h (List.nodup_singleton p) ?_
    intro x hx hx'
    rcases List.mem_singleton.mp hx' with rfl
    exact hp hx

/-! ### Traversal lemmas -/

theorem stepEntry_pres (P : DepMap → Prop)
    (hP : ∀ m p d, P m → P (pushDep m p d)) :
    ∀ (par : Option String) (n : Node) (m : DepMap), P m → P (stepEntry par n m).1 := by
  intro par n m h
  cases n with
  | propertyDefinition k c v => cases v <;> exact h
  | property k c v => cases v <;> exact h
  | memberExpression obj p =>
    cases p with
    | identifier pname =>
      cases obj with
      | thisExpression =>
        cases par with
        | none => exact h
        | some s =>
          by_cases hs : s = ""
          · simp only [stepEntry, if_pos hs]; exact h
          · simp only [stepEntry, if_neg hs]; exact hP _ _ _ h
      | _ => exact h
    | _ => exact h
  | _ => exact h

theorem extractLoopF_nil : ∀ (fuel : Nat) (m : DepMap), extractLoopF fuel m [] = m := by
  intro fuel m; cases fuel <;> rfl

theorem extractLoopF_pres (P : DepMap → Prop)
    (hP : ∀ m p d, P m → P (pushDep m p d)) :
    ∀ (fuel : Nat) (q : List QEntry) (m : DepMap), P m → P (extractLoopF fuel m q) := by
  intro fuel
  induction fuel with
  | zero => intro q m h; exact h
  | succ f ih =>
    intro q m h
    cases q with
    | nil => exact h
    | cons e q' =>
      cases hn : e.node with
      | none => simp only [extractLoopF, hn]; exact ih _ _ h
      | some n =>
        simp only [extractLoopF, hn]
        rcases hse : stepEntry e.parent n m with ⟨m', cs⟩
        have hm' : P m' := by
          have := stepEntry_pres P hP e.parent n m h
          rw [hse] at this
          exact this
        exact ih _ _ hm'

theorem nodup_keys_rawDeps (n : Node) : (keysOf (rawDeps n)).Nodup := by
  refine extractLoopF_pres (fun m => (keysOf m).Nodup)
    (fun m p d h => nodup_keys_pushDep h) _ _ _ ?_
  simp [keysOf]

theorem qWeight_nil : qWeight [] = 0 := rfl

theorem qWeight_cons (e : QEntry) (q : List QEntry) :
    qWeight (e :: q) = entryWeight e + qWeight q := rfl

theorem qWeight_append (q₁ q₂ : List QEntry) :
    qWeight (q₁ ++ q₂) = qWeight q₁ + qWeight q₂ := by
  simp [qWeight, List.sum_append]

theorem entryWeight_pos (e : QEntry) : 1 ≤ entryWeight e := by
  rcases e with ⟨p, n⟩
  cases n <;> simp [entryWeight]

theorem entryWeight_some (p : Option String) (cur : Node) (n : Node) :
    entryWeight (childEntry p cur (some n)) = 1 + nodeSize n := rfl

theorem qWeight_map_some (p : Option String) (cur : Node) (l : List Node) :
    qWeight (l.map fun b => childEntry p cur (some b)) = nodeListSize l := by
  induction l with
  | nil => rfl
  | cons x xs ih =>
    rw [List.map_cons, qWeight_cons, entryWeight_some, ih, nodeListSize]

theorem qWeight_map_opt (p : Option String) (cur : Node) (l : List (Option Node)) :
    qWeight (l.map fun el => childEntry p cur el) = optListSize l := by
  induction l with
  | nil => rfl
  | cons x xs ih =>
    rw [List.map_cons, qWeight_cons, ih, optListSize]
    cases x <;> rfl

theorem stepEntry_weight : ∀ (par : Option String) (n : Node) (m : DepMap),
    qWeight (stepEntry par n m).2 ≤ nodeSize n := by
  intro par n m
  cases n with
  | tsInterfaceBody body extra =>
    simp only [stepEntry, nodeSize, qWeight_map_some]; omega
  | classBody body extra =>
    simp only [stepEntry, nodeSize, qWeight_map_some]; omega
  | tsTypeLiteral mems extra =>
    simp only [stepEntry, nodeSize, qWeight_map_some]; omega
  | objectExpression props =>
    simp only [stepEntry, nodeSize, qWeight_map_some]; omega
  | propertyDefinition k c v =>
    cases v with
    | none => simp [stepEntry, nodeSize, qWeight_nil]
    | some vn =>
      simp only [stepEntry, nodeSize, optNodeSize, qWeight_cons, entryWeight_some, qWeight_nil]
      omega
  | property k c v =>
    cases v with
    | none => simp [stepEntry, nodeSize, qWeight_nil]
    | some vn =>
      simp only [stepEntry, nodeSize, optNodeSize, qWeight_cons, entryWeight_some, qWeight_nil]
      omega
  | methodDefinition k c v => simp [stepEntry, qWeight_nil, nodeSize]
  | arrayExpression els =>
    simp only [stepEntry, nodeSize, qWeight_map_opt]; omega
  | callExpression callee args =>
    cases callee with
    | memberExpression obj p =>
      simp only [stepEntry, nodeSize, qWeight_append, qWeight_map_some, qWeight_cons,
        entryWeight_some, qWeight_nil]
      omega
    | _ =>
      simp only [stepEntry, nodeSize, qWeight_append, qWeight_map_some, qWeight_nil]
      omega
  | memberExpression obj p =>
    cases p with
    | identifier pname =>
      cases obj with
      | thisExpression =>
        cases par with
        | none => simp [stepEntry, qWeight_nil]
        | some s =>
          by_cases hs : s = "" <;> simp [stepEntry, hs, qWeight_nil]
      | memberExpression o2 p2 =>
        simp only [stepEntry, nodeSize, qWeight_cons, qWeight_nil, entryWeight]
        omega
      | _ => simp [stepEntry, qWeight_nil]
    | _ =>
      cases obj <;> simp [stepEntry, qWeight_nil]
  | chainExpression ex =>
    simp only [stepEntry, nodeSize, qWeight_cons, entryWeight_some, qWeight_nil]
    omega
  | tsAsExpression ex =>
    simp only [stepEntry, nodeSize, qWeight_cons, entryWeight_some, qWeight_nil]
    omega
  | functionExpression body => simp [stepEntry, qWeight_nil]
  | returnStatement a => simp [stepEntry, qWeight_nil]
  | thisExpression => simp [stepEntry, qWeight_nil]
  | identifier s => simp [stepEntry, qWeight_nil]
  | literalExpr v => simp [stepEntry, qWeight_nil]
  | other => simp [stepEntry, qWeight_nil]

/-- Traversal fuel invariance: any fuel at least the queue weight computes
the same (complete) traversal. -/
theorem extractLoopF_fuel : ∀ (fuel fuel' : Nat) (m : DepMap) (q : List QEntry),
    qWeight q ≤ fuel → qWeight q ≤ fuel' →
    extractLoopF fuel m q = extractLoopF fuel' m q := by
  intro fuel
  induction fuel with
  | zero =>
    intro fuel' m q h _
    cases q with
    | nil => rw [extractLoopF_nil, extractLoopF_nil]
    | cons e q' =>
      exfalso
      have := entryWeight_pos e
      rw [qWeight_cons] at h
      omega
  | succ f ih =>
    intro fuel' m q h h'
    cases q with
    | nil => rw [extractLoopF_nil, extractLoopF_nil]
    | cons e q' =>
      have hpos := entryWeight_pos e
      rw [qWeight_cons] at h h'
      cases fuel' with
      | zero => omega
      | succ f' =>
        cases hn : e.node with
        | none =>
          simp only [extractLoopF, hn]
          have hw : entryWeight e = 1 := by
            rcases e with ⟨p, nd⟩
            cases hn
            rfl
          refine ih f' m q' ?_ ?_ <;> omega
        | some n =>
          simp only [extractLoopF, hn]
          rcases hse : stepEntry e.parent n m with ⟨m', cs⟩
          have hw : entryWeight e = 1 + nodeSize n := by
            rcases e with ⟨p, nd⟩
            cases hn
            rfl
          have hcs : qWeight cs ≤ nodeSize n := by
            have := stepEntry_weight e.parent n m
            rw [hse] at this
            exact this
          have hq : qWeight (q' ++ cs) ≤ f := by
            rw [qWeight_append]; omega
          have hq' : qWeight (q' ++ cs) ≤ f' := by
            rw [qWeight_append]; omega
          exact ih f' m' (q' ++ cs) hq hq'

/-! ### Closure pass: structural lemmas -/

theorem setDeps_not_mem : ∀ {m : DepMap} {k : String} (v : List String),
    k ∉ keysOf m → setDeps m k v = m := by
  intro m
  induction m with
  | nil => intro k v _; rfl
  | cons p rest ih =>
    intro k v h
    rcases p with ⟨k', v'⟩
    rw [keysOf_cons] at h
    rw [setDeps, if_neg (fun hk => h (List.mem_cons.mpr (Or.inl hk.symm)))]
    rw [ih v (fun hk => h (List.mem_cons_of_mem _ hk))]

theorem sorted_wtOf (m : DepMap) (k : String) : List.Sorted strRel (wtOf m k) :=
  sorted_sortStrings _

theorem nodup_wtOf (m : DepMap) (k : String) : (wtOf m k).Nodup :=
  nodup_sortStrings (nodup_dedupFirst _)

theorem mem_wtOf {m : DepMap} {k y : String} :
    y ∈ wtOf m k ↔ y ∈ entry m k ∨ ∃ d, d ∈ entry m k ∧ y ∈ entry m d := by
  rw [wtOf]
  simp only [mem_sortStrings, mem_dedupFirst, List.mem_append, List.mem_flatten,
    List.mem_map]
  constructor
  · rintro (hy | ⟨l, ⟨d, hd, rfl⟩, hyl⟩)
    · exact Or.inl hy
    · exact Or.inr ⟨d, hd, hyl⟩
  · rintro (hy | ⟨d, hd, hyd⟩)
    · exact Or.inl hy
    · exact Or.inr ⟨entry m d, ⟨d, hd, rfl⟩, hyd⟩

theorem entry_subset_wtOf {m : DepMap} {k : String} : entry m k ⊆ wtOf m k :=
  fun _ hy => mem_wtOf.mpr (Or.inl hy)

theorem stepKey_fst_keys (m : DepMap) (k : String) :
    keysOf (stepKey m k).1 = keysOf m := by
  rw [stepKey]
  split <;> exact keysOf_setDeps m k _

theorem entry_stepKey_ne {m : DepMap} {k k' : String} (h : k' ≠ k) :
    entry (stepKey m k).1 k' = entry m k' := by
  rw [stepKey]
  split <;> exact entry_setDeps_ne m _ h

theorem entry_stepKey_self {m : DepMap} {k : String} (hk : k ∈ keysOf m) :
    entry (stepKey m k).1 k = wtOf m k := by
  rw [stepKey]
  split
  · rename_i h
    rw [entry_setDeps_self _ hk, ← h]
  · rw [entry_setDeps_self _ hk]

theorem mem_entry_stepKey_mono {m : DepMap} {k k' y : String}
    (h : y ∈ entry m k') : y ∈ entry (stepKey m k).1 k' := by
  by_cases hkk : k' = k
  · subst hkk
    by_cases hk : k' ∈ keysOf m
    · rw [entry_stepKey_self hk]
      exact entry_subset_wtOf h
    · rw [entry_eq_nil_of_not_mem hk] at h
      exact absurd h (List.not_mem_nil y)
  · rw [entry_stepKey_ne hkk]
    exact h

theorem foldKeys_fst_keys : ∀ (ks : List String) (m : DepMap) (b : Bool),
    keysOf (foldKeys ks (m, b)).1 = keysOf m := by
  intro ks
  induction ks with
  | nil => intro m b; rfl
  | cons k ks ih =>
    intro m b
    rcases hsk : stepKey m k with ⟨m', c⟩
    simp only [foldKeys, hsk]
    rw [ih m' (b || c)]
    have := stepKey_fst_keys m k
    rw [hsk] at this
    exact this

theorem entry_foldKeys_not_mem : ∀ (ks : List String) (m : DepMap) (b : Bool) (k : String),
    k ∉ ks → entry (foldKeys ks (m, b)).1 k = entry m k := by
  intro ks
  induction ks with
  | nil => intro m b k _; rfl
  | cons k' ks ih =>
    intro m b k h
    rcases hsk : stepKey m k' with ⟨m', c⟩
    simp only [foldKeys, hsk]
    have h1 : k ∉ ks := fun hc => h (List.mem_cons_of_mem _ hc)
    have h2 : k ≠ k' := fun hc => h (hc ▸ List.mem_cons_self _ _)
    rw [ih m' (b || c) k h1]
    have := entry_stepKey_ne (m := m) (k := k') h2
    rw [hsk] at this
    exact this

theorem mem_entry_foldKeys_mono : ∀ (ks : List String) (m : DepMap) (b : Bool)
    (k y : String), y ∈ entry m k → y ∈ entry (foldKeys ks (m, b)).1 k := by
  intro ks
  induction ks with
  | nil => intro m b k y h; exact h
  | cons k' ks ih =>
    intro m b k y h
    rcases hsk : stepKey m k' with ⟨m', c⟩
    simp only [foldKeys, hsk]
    refine ih m' (b || c) k y ?_
    have := mem_entry_stepKey_mono (k := k') h
    rw [hsk] at this
    exact this

theorem sorted_entry_foldKeys : ∀ (ks : List String) (m : DepMap) (b : Bool),
    ks.Nodup → (∀ k ∈ ks, k ∈ keysOf m) → ∀ k ∈ ks,
    List.Sorted strRel (entry (foldKeys ks (m, b)).1 k) ∧
      (entry (foldKeys ks (m, b)).1 k).Nodup := by
  intro ks
  induction ks with
  | nil => intro m b _ _ k hk; exact absurd hk (List.not_mem_nil k)
  | cons k' ks ih =>
    intro m b hnd hsub k hk
    rcases List.nodup_cons.mp hnd with ⟨hk'notin, hndks⟩
    rcases hsk : stepKey m k' with ⟨m', c⟩
    simp only [foldKeys, hsk]
    rcases List.mem_cons.mp hk with rfl | hkks
    · have hkeys : k ∈ keysOf m := hsub k (List.mem_cons_self _ _)
      have hval : entry m' k = wtOf m k := by
        have := entry_stepKey_self hkeys
        rw [hsk] at this
        exact this
      rw [entry_foldKeys_not_mem ks m' (b || c) k hk'notin, hval]
      exact ⟨sorted_wtOf m k, nodup_wtOf m k⟩
    · refine ih m' (b || c) hndks ?_ k hkks
      intro j hj
      have : j ∈ keysOf m := hsub j (List.mem_cons_of_mem _ hj)
      have hkeq : keysOf m' = keysOf m := by
        have := stepKey_fst_keys m k'
        rw [hsk] at this
        exact this
      rw [hkeq]
      exact this

theorem closeOnce_fst_keys (m : DepMap) : keysOf (closeOnce m).1 = keysOf m :=
  foldKeys_fst_keys (keysOf m) m false

theorem sorted_entry_closeOnce {m : DepMap} (hnd : (keysOf m).Nodup)
    {k : String} {l : List String} (h : getDeps (closeOnce m).1 k = some l) :
    List.Sorted strRel l ∧ l.Nodup := by
  have hk : k ∈ keysOf m := by
    have := getDeps_some_mem_keys h
    rw [closeOnce_fst_keys] at this
    exact this
  have hl : entry (closeOnce m).1 k = l := by rw [entry, h]; rfl
  have := sorted_entry_foldKeys (keysOf m) m false hnd (fun j hj => hj) k hk
  rw [closeOnce] at hl
  rw [hl] at this
  exact this

/-! ### Sorted entries of the loop result -/

theorem sorted_entry_closeLoop : ∀ (fuel : Nat) (m : DepMap), 1 ≤ fuel →
    (keysOf m).Nodup → ∀ k l, getDeps (closeLoop fuel m) k = some l →
    List.Sorted strRel l ∧ l.Nodup := by
  intro fuel
  induction fuel with
  | zero => intro m h; omega
  | succ f ih =>
    intro m _ hnd k l h
    rw [closeLoop] at h
    rcases hco : closeOnce m with ⟨m', c⟩
    rw [hco] at h
    cases c with
    | false =>
      have h' : getDeps (closeOnce m).1 k = some l := by rw [hco]; exact h
      exact sorted_entry_closeOnce hnd h'
    | true =>
      cases f with
      | zero =>
        have h' : getDeps (closeOnce m).1 k = some l := by rw [hco]; exact h
        exact sorted_entry_closeOnce hnd h'
      | succ f' =>
        have hnd' : (keysOf m').Nodup := by
          have := closeOnce_fst_keys m
          rw [hco] at this
          rw [this]
          exact hnd
        exact ih m' (by omega) hnd' k l h

/-! ### Soundness: closure entries stay inside the transitive closure -/

theorem mem_keys_of_rel {m₀ : DepMap} {k y : String} (h : relOf m₀ k y) :
    k ∈ keysOf m₀ := by
  by_cases hk : k ∈ keysOf m₀
  · exact hk
  · rw [relOf, entry_eq_nil_of_not_mem hk] at h
    exact absurd h (List.not_mem_nil y)

theorem stepKey_not_mem {m : DepMap} {k : String} (h : k ∉ keysOf m) :
    (stepKey m k).1 = m := by
  rw [stepKey]
  split <;> exact setDeps_not_mem _ h

theorem sound_refl (m₀ : DepMap) : Sound m₀ m₀ :=
  fun _ _ h => Relation.TransGen.single h

theorem sound_stepKey {m₀ m : DepMap} {k : String} (hs : Sound m₀ m) :
    Sound m₀ (stepKey m k).1 := by
  intro k' y hy
  by_cases hkk : k' = k
  · subst hkk
    by_cases hk : k' ∈ keysOf m
    · rw [entry_stepKey_self hk] at hy
      rcases mem_wtOf.mp hy with h | ⟨d, hd, hyd⟩
      · exact hs _ _ h
      · exact (hs _ _ hd).trans (hs _ _ hyd)
    · rw [stepKey_not_mem hk] at hy
      exact hs _ _ hy
  · rw [entry_stepKey_ne hkk] at hy
    exact hs _ _ hy

theorem sound_foldKeys {m₀ : DepMap} : ∀ (ks : List String) (m : DepMap) (b : Bool),
    Sound m₀ m → Sound m₀ (foldKeys ks (m, b)).1 := by
  intro ks
  induction ks with
  | nil => intro m b h; exact h
  | cons k ks ih =>
    intro m b h
    rcases hsk : stepKey m k with ⟨m', c⟩
    simp only [foldKeys, hsk]
    refine ih m' (b || c) ?_
    have := sound_stepKey (k := k) h
    rw [hsk] at this
    exact this

theorem sound_closeOnce {m₀ m : DepMap} (h : Sound m₀ m) : Sound m₀ (closeOnce m).1 :=
  sound_foldKeys (keysOf m) m false h

theorem sound_passIter {m₀ : DepMap} : ∀ (j : Nat) (m : DepMap),
    Sound m₀ m → Sound m₀ (passIter j m) := by
  intro j
  induction j with
  | zero => intro m h; exact h
  | succ j ih => intro m h; exact sound_closeOnce (ih m h)

/-! ### Reachability and paths over the raw mapping -/

theorem reachN_succ_of_reachN {m₀ : DepMap} : ∀ {n : Nat} {k y : String},
    reachN m₀ n k y → reachN m₀ (n + 1) k y := by
  intro n
  induction n with
  | zero => intro k y h; exact absurd h id
  | succ n ih =>
    intro k y h
    rcases h with h | ⟨d, hd, hr⟩
    · exact Or.inl h
    · exact Or.inr ⟨d, hd, ih hr⟩

theorem reachN_mono {m₀ : DepMap} {n n' : Nat} (h : n ≤ n') {k y : String}
    (hr : reachN m₀ n k y) : reachN m₀ n' k y := by
  induction h with
  | refl => exact hr
  | step _ ih => exact reachN_succ_of_reachN ih

theorem reachN_iff_path {m₀ : DepMap} : ∀ {n : Nat} {k y : String},
    reachN m₀ n k y ↔ ∃ ds, isPath m₀ k ds y ∧ ds.length < n := by
  intro n
  induction n with
  | zero =>
    intro k y
    constructor
    · intro h; exact absurd h id
    · rintro ⟨ds, _, h⟩; omega
  | succ n ih =>
    intro k y
    constructor
    · rintro (h | ⟨d, hd, hr⟩)
      · exact ⟨[], h, by simp⟩
      · rcases ih.mp hr with ⟨ds, hp, hl⟩
        refine ⟨d :: ds, ⟨hd, hp⟩, ?_⟩
        rw [List.length_cons]
        exact Nat.succ_lt_succ hl
    · rintro ⟨ds, hp, hl⟩
      cases ds with
      | nil => exact Or.inl hp
      | cons d ds' =>
        rcases hp with ⟨hd, hp'⟩
        refine Or.inr ⟨d, hd, ih.mpr ⟨ds', hp', ?_⟩⟩
        rw [List.length_cons] at hl
        exact Nat.lt_of_succ_lt_succ hl

theorem isPath_suffix {m₀ : DepMap} : ∀ (s : List String) {x : String} {t : List String}
    {k y : String}, isPath m₀ k (s ++ x :: t) y → isPath m₀ x t y := by
  intro s
  induction s with
  | nil =>
    intro x t k y h
    exact h.2
  | cons a s ih =>
    intro x t k y h
    exact ih h.2

theorem isPath_sub_keys {m₀ : DepMap} : ∀ (ds : List String) (k y : String),
    isPath m₀ k ds y → ∀ x ∈ k :: ds, x ∈ keysOf m₀ := by
  intro ds
  induction ds with
  | nil =>
    intro k y h x hx
    rcases List.mem_cons.mp hx with rfl | hx'
    · exact mem_keys_of_rel h
    · exact absurd hx' (List.not_mem_nil x)
  | cons d ds ih =>
    intro k y h x hx
    rcases List.mem_cons.mp hx with rfl | hx'
    · exact mem_keys_of_rel h.1
    · exact ih d y h.2 x hx'

theorem isPath_append_one {m₀ : DepMap} : ∀ (ds : List String) {k b y : String},
    isPath m₀ k ds b → relOf m₀ b y → isPath m₀ k (ds ++ [b]) y := by
  intro ds
  induction ds with
  | nil => intro k b y h hr; exact ⟨h, hr⟩
  | cons d ds ih => intro k b y h hr; exact ⟨h.1, ih h.2 hr⟩

theorem path_shorten_bounded {m₀ : DepMap} : ∀ (n : Nat) (ds : List String) (k y : String),
    ds.length ≤ n → isPath m₀ k ds y →
    ∃ ds', isPath m₀ k ds' y ∧ (k :: ds').Nodup ∧ ds' ⊆ ds ∧ ds'.length ≤ ds.length := by
  intro n
  induction n with
  | zero =>
    intro ds k y hl hp
    have : ds = [] := List.eq_nil_of_length_eq_zero (Nat.le_zero.mp hl)
    subst this
    exact ⟨[], hp, List.nodup_singleton k, fun x hx => hx, Nat.le_refl 0⟩
  | succ n ih =>
    intro ds k y hl hp
    by_cases hk : k ∈ ds
    · rcases List.append_of_mem hk with ⟨s, t, rfl⟩
      have hpt : isPath m₀ k t y := isPath_suffix s hp
      have hlt : t.length ≤ n := by
        rw [List.length_append, List.length_cons] at hl
        omega
      rcases ih t k y hlt hpt with ⟨ds', hp', hnd', hsub', hlen'⟩
      refine ⟨ds', hp', hnd', ?_, ?_⟩
      · intro x hx
        exact List.mem_append.mpr (Or.inr (List.mem_cons_of_mem _ (hsub' hx)))
      · rw [List.length_append, List.length_cons]
        omega
    · cases ds with
      | nil => exact ⟨[], hp, List.nodup_singleton k, fun x hx => hx, Nat.le_refl 0⟩
      | cons d ds'' =>
        rcases hp with ⟨hkd, hp''⟩
        have hl'' : ds''.length ≤ n := by
          rw [List.length_cons] at hl
          omega
        rcases ih ds'' d y hl'' hp'' with ⟨t', hp', hnd', hsub', hlen'⟩
        have hkne : k ≠ d := fun h => hk (h ▸ List.mem_cons_self _ _)
        have hknt : k ∉ t' := fun h => hk (List.mem_cons_of_mem _ (hsub' h))
        refine ⟨d :: t', ⟨hkd, hp'⟩, ?_, ?_, ?_⟩
        · refine List.nodup_cons.mpr ⟨?_, hnd'⟩
          intro hc
          rcases List.mem_cons.mp hc with h | h
          · exact hkne h
          · exact hknt h
        · intro x hx
          rcases List.mem_cons.mp hx with rfl | h
          · exact List.mem_cons_self _ _
          · exact List.mem_cons_of_mem _ (hsub' h)
        · rw [List.length_cons, List.length_cons]
          omega

theorem transGen_path {m₀ : DepMap} {k y : String}
    (h : Relation.TransGen (relOf m₀) k y) : ∃ ds, isPath m₀ k ds y := by
  induction h with
  | single h => exact ⟨[], h⟩
  | tail _ h ih =>
    rcases ih with ⟨ds, hp⟩
    exact ⟨ds ++ [_], isPath_append_one ds hp h⟩

theorem transGen_reachN {m₀ : DepMap} {k y : String}
    (h : Relation.TransGen (relOf m₀) k y) :
    reachN m₀ (keysOf m₀).length k y := by
  rcases transGen_path h with ⟨ds, hp⟩
  rcases path_shorten_bounded ds.length ds k y (Nat.le_refl _) hp with
    ⟨ds', hp', hnd', _, _⟩
  have hsub : k :: ds' ⊆ keysOf m₀ := fun x hx => isPath_sub_keys ds' k y hp' x hx
  have hlen : (k :: ds').length ≤ (keysOf m₀).length :=
    (hnd'.subperm hsub).length_le
  rw [List.length_cons] at hlen
  exact reachN_iff_path.mpr ⟨ds', hp', by omega⟩

theorem reachN_transGen {m₀ : DepMap} : ∀ {n : Nat} {k y : String},
    reachN m₀ n k y → Relation.TransGen (relOf m₀) k y := by
  intro n
  induction n with
  | zero => intro k y h; exact absurd h id
  | succ n ih =>
    intro k y h
    rcases h with h | ⟨d, hd, hr⟩
    · exact Relation.TransGen.single h
    · exact Relation.TransGen.head hd (ih hr)

/-! ### Lower bound: each pass advances reachability by one step -/

theorem getDeps_some_of_mem_keys : ∀ {m : DepMap} {k : String},
    k ∈ keysOf m → ∃ v, getDeps m k = some v := by
  intro m
  induction m with
  | nil => intro k h; exact absurd h (List.not_mem_nil k)
  | cons p rest ih =>
    intro k h
    rcases p with ⟨k', v'⟩
    by_cases hk : k' = k
    · exact ⟨v', by simp only [getDeps, if_pos hk]⟩
    · rw [keysOf_cons] at h
      rcases List.mem_cons.mp h with h1 | h1
      · exact absurd h1.symm hk
      · rcases ih h1 with ⟨v, hv⟩
        refine ⟨v, ?_⟩
        simp only [getDeps, if_neg hk]
        exact hv

theorem getDeps_eq_some_entry {m : DepMap} {k : String}
    (h : k ∈ keysOf m) : getDeps m k = some (entry m k) := by
  rcases getDeps_some_of_mem_keys h with ⟨v, hv⟩
  rw [entry, hv]
  rfl

theorem lowerB_foldKeys {m₀ : DepMap} (p : Nat) : ∀ (ks : List String) (m : DepMap) (b : Bool),
    keysOf m = keysOf m₀ →
    GrowsFrom m₀ m →
    (∀ k y, reachN m₀ p k y → y ∈ entry m k) →
    ∀ k ∈ ks, ∀ y, reachN m₀ (p + 1) k y → y ∈ entry (foldKeys ks (m, b)).1 k := by
  intro ks
  induction ks with
  | nil => intro m b _ _ _ k hk; exact absurd hk (List.not_mem_nil k)
  | cons k' ks ih =>
    intro m b hkeys hgrow hlow k hk y hry
    rcases hsk : stepKey m k' with ⟨m', c⟩
    simp only [foldKeys, hsk]
    have hkm : keysOf m' = keysOf m := by
      have := stepKey_fst_keys m k'
      rw [hsk] at this
      exact this
    have hgrow' : GrowsFrom m₀ m' := by
      intro j x hj
      have h1 : x ∈ entry (stepKey m k').1 j := mem_entry_stepKey_mono (hgrow j x hj)
      rw [hsk] at h1
      exact h1
    have hlow' : ∀ j x, reachN m₀ p j x → x ∈ entry m' j := by
      intro j x hr
      have h1 : x ∈ entry (stepKey m k').1 j := mem_entry_stepKey_mono (hlow j x hr)
      rw [hsk] at h1
      exact h1
    rcases List.mem_cons.mp hk with rfl | hkks
    · refine mem_entry_foldKeys_mono ks m' (b || c) k y ?_
      have hkkeys : k ∈ keysOf m := by
        have hrel : ∃ z, relOf m₀ k z := by
          rcases hry with h | ⟨d, hd, _⟩
          · exact ⟨y, h⟩
          · exact ⟨d, hd⟩
        rcases hrel with ⟨z, hz⟩
        rw [hkeys]
        exact mem_keys_of_rel hz
      have hstep : entry (stepKey m k).1 k = wtOf m k := entry_stepKey_self hkkeys
      rw [hsk] at hstep
      rw [hstep]
      rcases hry with h | ⟨d, hd, hr⟩
      · exact entry_subset_wtOf (hgrow k y h)
      · exact mem_wtOf.mpr (Or.inr ⟨d, hgrow k d hd, hlow d y hr⟩)
    · exact ih m' (b || c) (hkm.trans hkeys) hgrow' hlow' k hkks y hry

theorem lowerB_closeOnce {m₀ m : DepMap} (p : Nat)
    (hkeys : keysOf m = keysOf m₀) (hgrow : GrowsFrom m₀ m)
    (hlow : ∀ k y, reachN m₀ p k y → y ∈ entry m k) :
    ∀ k y, reachN m₀ (p + 1) k y → y ∈ entry (closeOnce m).1 k := by
  intro k y hr
  by_cases hk : k ∈ keysOf m
  · exact lowerB_foldKeys p (keysOf m) m false hkeys hgrow hlow k hk y hr
  · exfalso
    have hrel : ∃ z, relOf m₀ k z := by
      rcases hr with h | ⟨d, hd, _⟩
      · exact ⟨y, h⟩
      · exact ⟨d, hd⟩
    rcases hrel with ⟨z, hz⟩
    exact hk (hkeys ▸ mem_keys_of_rel hz)

theorem passIter_keys : ∀ (j : Nat) (m : DepMap), keysOf (passIter j m) = keysOf m := by
  intro j
  induction j with
  | zero => intro m; rfl
  | succ j ih =>
    intro m
    rw [passIter, closeOnce_fst_keys, ih]

theorem mem_entry_closeOnce_mono {m : DepMap} {k y : String}
    (h : y ∈ entry m k) : y ∈ entry (closeOnce m).1 k :=
  mem_entry_foldKeys_mono (keysOf m) m false k y h

theorem growsFrom_passIter (m₀ : DepMap) : ∀ (j : Nat), GrowsFrom m₀ (passIter j m₀) := by
  intro j
  induction j with
  | zero => intro k y h; exact h
  | succ j ih =>
    intro k y h
    rw [passIter]
    exact mem_entry_closeOnce_mono (ih k y h)

theorem lowerB_passIter (m₀ : DepMap) : ∀ (j : Nat) (k y : String),
    reachN m₀ (j + 1) k y → y ∈ entry (passIter j m₀) k := by
  intro j
  induction j with
  | zero =>
    intro k y h
    rcases h with h | ⟨d, _, h0⟩
    · exact h
    · exact absurd h0 id
  | succ j ih =>
    intro k y h
    rw [passIter]
    exact lowerB_closeOnce (j + 1) (passIter_keys j m₀) (growsFrom_passIter m₀ j) ih k y h

/-! ### Saturation: enough passes compute the full transitive closure -/

theorem entry_passIter_saturated (m₀ : DepMap) (k y : String) :
    y ∈ entry (passIter (keysOf m₀).length m₀) k ↔
      Relation.TransGen (relOf m₀) k y := by
  constructor
  · exact fun h => sound_passIter _ m₀ (sound_refl m₀) k y h
  · intro h
    have h1 := transGen_reachN h
    have h2 : reachN m₀ ((keysOf m₀).length + 1) k y := reachN_succ_of_reachN h1
    exact lowerB_passIter m₀ (keysOf m₀).length k y h2

theorem stable_passIter_sat (m₀ : DepMap) (hnd : (keysOf m₀).Nodup) :
    Stable (passIter (keysOf m₀).length m₀) := by
  intro k hkmem
  rw [passIter_keys] at hkmem
  by_cases hK0 : (keysOf m₀).length = 0
  · exfalso
    have : keysOf m₀ = [] := List.eq_nil_of_length_eq_zero hK0
    rw [this] at hkmem
    exact List.not_mem_nil k hkmem
  · obtain ⟨J, hJ⟩ : ∃ J, (keysOf m₀).length = J + 1 :=
      ⟨(keysOf m₀).length - 1, by omega⟩
    have hM : passIter (keysOf m₀).length m₀ = (closeOnce (passIter J m₀)).1 := by
      rw [hJ, passIter]
    have hkmem' : k ∈ keysOf (passIter (keysOf m₀).length m₀) := by
      rw [passIter_keys]; exact hkmem
    have hget : getDeps (passIter (keysOf m₀).length m₀) k
        = some (entry (passIter (keysOf m₀).length m₀) k) :=
      getDeps_eq_some_entry hkmem'
    have hget' : getDeps (closeOnce (passIter J m₀)).1 k
        = some (entry (passIter (keysOf m₀).length m₀) k) := by
      rw [← hM]; exact hget
    have hnd' : (keysOf (passIter J m₀)).Nodup := by
      rw [passIter_keys]; exact hnd
    have hsorted := sorted_entry_closeOnce hnd' hget'
    refine ⟨hsorted.1, ?_⟩
    refine sorted_nodup_ext (sorted_wtOf _ _) hsorted.1 (nodup_wtOf _ _) hsorted.2 ?_
    intro x
    rw [mem_wtOf]
    constructor
    · rintro (h | ⟨d, hd, hxd⟩)
      · exact h
      · rw [entry_passIter_saturated] at hd hxd ⊢
        exact hd.trans hxd
    · exact fun h => Or.inl h

theorem fixed_of_stable {m : DepMap} (h : Stable m) : Fixed m := by
  have main : ∀ ks : List String, (∀ k ∈ ks, k ∈ keysOf m) →
      foldKeys ks (m, false) = (m, false) := by
    intro ks
    induction ks with
    | nil => intro _; rfl
    | cons k ks ih =>
      intro hsub
      have hk : k ∈ keysOf m := hsub k (List.mem_cons_self _ _)
      rcases h k hk with ⟨hsort, hwt⟩
      have hcond : wtOf m k = sortStrings (entry m k) := by
        rw [hwt, sortStrings_eq_self_of_sorted hsort]
      have hstep : stepKey m k = (m, false) := by
        rw [stepKey]
        rw [if_pos hcond]
        rw [← hcond, hwt, setDeps_self (getDeps_eq_some_entry hk)]
      simp only [foldKeys, hstep]
      exact ih (fun j hj => hsub j (List.mem_cons_of_mem _ hj))
  exact main (keysOf m) (fun k hk => hk)

theorem passIter_of_fixed {m : DepMap} (h : Fixed m) : ∀ (j : Nat), passIter j m = m := by
  intro j
  induction j with
  | zero => rfl
  | succ j ih =>
    rw [passIter, ih, h]

theorem passIter_succ_front : ∀ (j : Nat) (m : DepMap),
    passIter (j + 1) m = passIter j (closeOnce m).1 := by
  intro j
  induction j with
  | zero => intro m; rfl
  | succ j ih =>
    intro m
    rw [passIter, ih, ← passIter]

theorem passIter_add_of_fixed {m : DepMap} {j : Nat}
    (h : Fixed (passIter j m)) : ∀ (e : Nat), passIter (j + e) m = passIter j m := by
  intro e
  induction e with
  | zero => rfl
  | succ e ih =>
    have : j + (e + 1) = (j + e) + 1 := rfl
    rw [this, passIter, ih, h]

/-! ### A pass that reports no modification has reached a fixed point -/

theorem wtOf_congr {m m' : DepMap}
    (h : ∀ j x, x ∈ entry m j ↔ x ∈ entry m' j) (k : String) :
    wtOf m k = wtOf m' k := by
  refine sorted_nodup_ext (sorted_wtOf _ _) (sorted_wtOf _ _)
    (nodup_wtOf _ _) (nodup_wtOf _ _) ?_
  intro x
  rw [mem_wtOf, mem_wtOf]
  constructor
  · rintro (hx | ⟨d, hd, hxd⟩)
    · exact Or.inl ((h k x).mp hx)
    · exact Or.inr ⟨d, (h k d).mp hd, (h d x).mp hxd⟩
  · rintro (hx | ⟨d, hd, hxd⟩)
    · exact Or.inl ((h k x).mpr hx)
    · exact Or.inr ⟨d, (h k d).mpr hd, (h d x).mpr hxd⟩

theorem stepKey_false_elim {m m' : DepMap} {k : String}
    (h : stepKey m k = (m', false)) :
    wtOf m k = sortStrings (entry m k) ∧ m' = setDeps m k (sortStrings (entry m k)) := by
  rw [stepKey] at h
  split at h
  · rename_i hc
    exact ⟨hc, (Prod.mk.injEq _ _ _ _ ▸ h).1.symm⟩
  · exact absurd (congrArg Prod.snd h) (by simp)

theorem foldKeys_flag_mono : ∀ (ks : List String) (m : DepMap),
    (foldKeys ks (m, true)).2 = true := by
  intro ks
  induction ks with
  | nil => intro m; rfl
  | cons k ks ih =>
    intro m
    rcases hsk : stepKey m k with ⟨m', c⟩
    simp only [foldKeys, hsk, Bool.true_or]
    exact ih m'

theorem foldKeys_false_main : ∀ (ks : List String) (m : DepMap),
    ks.Nodup → (∀ k ∈ ks, k ∈ keysOf m) →
    (foldKeys ks (m, false)).2 = false →
    (∀ j x, x ∈ entry (foldKeys ks (m, false)).1 j ↔ x ∈ entry m j) ∧
    (∀ k ∈ ks, entry (foldKeys ks (m, false)).1 k = wtOf m k) := by
  intro ks
  induction ks with
  | nil =>
    intro m _ _ _
    exact ⟨fun j x => Iff.rfl, fun k hk => absurd hk (List.not_mem_nil k)⟩
  | cons k' ks ih =>
    intro m hnd hsub hflag
    rcases List.nodup_cons.mp hnd with ⟨hk'notin, hndks⟩
    have hk'keys : k' ∈ keysOf m := hsub k' (List.mem_cons_self _ _)
    rcases hsk : stepKey m k' with ⟨m', c⟩
    have hflag' : (foldKeys ks (m', false || c)).2 = false := by
      simp only [foldKeys, hsk] at hflag
      exact hflag
    have hc : c = false := by
      cases c with
      | false => rfl
      | true =>
        rw [Bool.or_true] at hflag'
        rw [foldKeys_flag_mono] at hflag'
        exact absurd hflag' (by simp)
    subst hc
    rcases stepKey_false_elim hsk with ⟨hcond, hm'⟩
    subst hm'
    have hset : ∀ j x, x ∈ entry (setDeps m k' (sortStrings (entry m k'))) j ↔ x ∈ entry m j := by
      intro j x
      by_cases hj : j = k'
      · subst hj
        rw [entry_setDeps_self _ hk'keys, mem_sortStrings]
      · rw [entry_setDeps_ne _ _ hj]
    have hsub' : ∀ k ∈ ks, k ∈ keysOf (setDeps m k' (sortStrings (entry m k'))) := by
      intro k hk
      rw [keysOf_setDeps]
      exact hsub k (List.mem_cons_of_mem _ hk)
    have hflag'' : (foldKeys ks (setDeps m k' (sortStrings (entry m k')), false)).2 = false :=
      hflag'
    obtain ⟨hsetR, hwtsR⟩ := ih _ hndks hsub' hflag''
    constructor
    · intro j x
      have h1 : x ∈ entry (foldKeys (k' :: ks) (m, false)).1 j ↔
          x ∈ entry (foldKeys ks (setDeps m k' (sortStrings (entry m k')), false)).1 j := by
        simp only [foldKeys, hsk, Bool.or_false]
      rw [h1, hsetR j x, hset j x]
    · intro k hk
      have h1 : entry (foldKeys (k' :: ks) (m, false)).1 k =
          entry (foldKeys ks (setDeps m k' (sortStrings (entry m k')), false)).1 k := by
        simp only [foldKeys, hsk, Bool.or_false]
      rcases List.mem_cons.mp hk with rfl | hkks
      · rw [h1, entry_foldKeys_not_mem _ _ _ _ hk'notin,
          entry_setDeps_self _ hk'keys, ← hcond]
      · rw [h1, hwtsR k hkks]
        exact wtOf_congr hset k

theorem fixed_of_closeOnce_false {m : DepMap} (hnd : (keysOf m).Nodup)
    (hflag : (closeOnce m).2 = false) : Fixed (closeOnce m).1 := by
  obtain ⟨hset, hwts⟩ := foldKeys_false_main (keysOf m) m hnd (fun k hk => hk) hflag
  refine fixed_of_stable ?_
  intro k hk
  rw [closeOnce_fst_keys] at hk
  have hval : entry (closeOnce m).1 k = wtOf m k := hwts k hk
  refine ⟨?_, ?_⟩
  · rw [hval]; exact sorted_wtOf m k
  · rw [hval]
    exact wtOf_congr hset k

/-! ### The loop equals iterated passes, and reaches the fixed point -/

theorem closeLoop_eq_passIter : ∀ (f : Nat) (m : DepMap), (keysOf m).Nodup →
    closeLoop f m = passIter f m := by
  intro f
  induction f with
  | zero => intro m _; rfl
  | succ f ih =>
    intro m hnd
    rw [closeLoop]
    rcases hco : closeOnce m with ⟨m₁, c⟩
    have hk₁ : (keysOf m₁).Nodup := by
      have := closeOnce_fst_keys m
      rw [hco] at this
      rw [this]
      exact hnd
    cases c with
    | true =>
      rw [passIter_succ_front, hco]
      exact ih m₁ hk₁
    | false =>
      rw [passIter_succ_front, hco]
      have hfix : Fixed m₁ := by
        have := fixed_of_closeOnce_false hnd (by rw [hco])
        rw [hco] at this
        exact this
      rw [passIter_of_fixed hfix]

theorem keysOf_length (m : DepMap) : (keysOf m).length = m.length :=
  List.length_map m Prod.fst

theorem fixed_passIter_sat (m₀ : DepMap) (hnd : (keysOf m₀).Nodup) :
    Fixed (passIter (keysOf m₀).length m₀) :=
  fixed_of_stable (stable_passIter_sat m₀ hnd)

theorem transitiveClosure_eq_sat (m₀ : DepMap) (hnd : (keysOf m₀).Nodup) :
    transitiveClosure m₀ = passIter (keysOf m₀).length m₀ := by
  rw [transitiveClosure, closeLoop_eq_passIter _ _ hnd, ← keysOf_length]
  have h1 : (keysOf m₀).length + 1 = (keysOf m₀).length + 1 := rfl
  have := passIter_add_of_fixed (fixed_passIter_sat m₀ hnd) 1
  exact this

theorem fixed_transitiveClosure (m₀ : DepMap) (hnd : (keysOf m₀).Nodup) :
    Fixed (transitiveClosure m₀) := by
  rw [transitiveClosure_eq_sat m₀ hnd]
  exact fixed_passIter_sat m₀ hnd

/-- The full characterization: after closure, `y` is recorded as a
dependency of `k` exactly when `y` is reachable from `k` through the raw
dependency edges. -/
theorem mem_entry_transitiveClosure {m₀ : DepMap} (hnd : (keysOf m₀).Nodup)
    {k y : String} :
    y ∈ entry (transitiveClosure m₀) k ↔ Relation.TransGen (relOf m₀) k y := by
  rw [transitiveClosure_eq_sat m₀ hnd]
  exact entry_passIter_saturated m₀ k y

theorem closeLoop_of_fixed {m : DepMap} (h : Fixed m) : ∀ (e : Nat), closeLoop e m = m := by
  intro e
  induction e with
  | zero => rfl
  | succ e _ =>
    rw [closeLoop, h]

theorem closeLoop_add_extra (m₀ : DepMap) (hnd : (keysOf m₀).Nodup) (e : Nat) :
    closeLoop (m₀.length + 1 + e) m₀ = transitiveClosure m₀ := by
  rw [closeLoop_eq_passIter _ _ hnd, transitiveClosure_eq_sat m₀ hnd, ← keysOf_length]
  have h1 : (keysOf m₀).length + 1 + e = (keysOf m₀).length + (1 + e) := by omega
  rw [h1]
  rw [passIter_add_of_fixed (fixed_passIter_sat m₀ hnd) (1 + e)]

/-! ### Bridge lemmas for the claims -/

/-- Membership in a closed dependency entry is exactly reachability along
the raw edges. -/
theorem mem_entry_extractDependencies {n : Node} {k y : String} :
    y ∈ entry (extractDependencies n) k ↔
      Relation.TransGen (relOf (rawDeps n)) k y :=
  mem_entry_transitiveClosure (nodup_keys_rawDeps n)

/-! ### Claims -/

/-- C1 (code_bug evidence): for two members with distinct non-empty
dependency sets of equal size and no direct relationship, the comparator
in the source returns `less` in both argument orders (the first
`a.dependencies.length <= b.dependencies.length` branch always fires),
not the `equal` that the spec specifies; the final `return Order.Equal`
is unreachable. -/
theorem c1_equal_sizes_cmp_less :
    dataDependency [("a", ["x"]), ("b", ["y"])]
        (Node.propertyDefinition (Key.identifier "a") false none)
        (Node.propertyDefinition (Key.identifier "b") false none) = Order.less ∧
    dataDependency [("a", ["x"]), ("b", ["y"])]
        (Node.propertyDefinition (Key.identifier "b") false none)
        (Node.propertyDefinition (Key.identifier "a") false none) = Order.less := by
  constructor <;> rfl

/-- C2 (counterexample): for the class body
`[ c() { return this.a }, a = 1, b = this.c ]` the closed mapping does
not give `b` the set `{c, a}`: the traversal never descends into the
method body of `c`, so `a` is not in `b`'s closed set. -/
theorem c2_counterexample :
    ¬ ("c" ∈ entry (extractDependencies exMethodChain) "b" ∧
       "a" ∈ entry (extractDependencies exMethodChain) "b") := by
  decide

/-- C2 (amended): for that class body the extractor returns exactly
`{ b ↦ ["c"] }` — the edge `b → c` is recorded, no `c → a` edge exists
because `MethodDefinition` is not a traversal case, and the closure adds
nothing. -/
theorem c2_amended :
    extractDependencies exMethodChain = [("b", ["c"])] := by
  decide

/-- C3: the returned mapping is a fixed point of transitive-closure
expansion: whenever `d` is in `map[k]` and `d` is itself a key, every
element of `map[d]` is already in `map[k]`. -/
theorem c3_closure_transitively_closed (n : Node) (k d x : String)
    (l l' : List String)
    (hk : getDeps (extractDependencies n) k = some l) (hd : d ∈ l)
    (hd' : getDeps (extractDependencies n) d = some l') (hx : x ∈ l') :
    x ∈ l := by
  have h1 : d ∈ entry (extractDependencies n) k := by rw [entry, hk]; exact hd
  have h2 : x ∈ entry (extractDependencies n) d := by rw [entry, hd']; exact hx
  have t1 := mem_entry_extractDependencies.mp h1
  have t2 := mem_entry_extractDependencies.mp h2
  have h3 := mem_entry_extractDependencies.mpr (t1.trans t2)
  rw [entry, hk] at h3
  exact h3

/-- C3 witness: for `a = this.b, b = this.c` the closed map is
`a ↦ [b, c], b ↦ [c]`, and the theorem instantiated at `k = a`, `d = b`,
`x = c` puts `c` into `a`'s entry. -/
theorem c3_witness :
    getDeps (extractDependencies exChainTwo) "a" = some ["b", "c"] ∧
    getDeps (extractDependencies exChainTwo) "b" = some ["c"] ∧
    "c" ∈ (["b", "c"] : List String) := by
  refine ⟨by decide, by decide, ?_⟩
  exact c3_closure_transitively_closed exChainTwo "a" "b" "c" ["b", "c"] ["c"]
    (by decide) (by decide) (by decide) (by decide)

/-- C4: whenever member `b`'s resolved name occurs in member `a`'s
resolved dependency set, the comparator returns `greater`, regardless of
the sizes of the two sets: the direct-dependency check precedes the size
comparison, and the both-empty check cannot fire because `a`'s set is
non-empty. -/
theorem c4_direct_dep_greater (m : DepMap) (a b : Node) (nb : String)
    (hname : (dataDependencyKey m b).name = some nb)
    (hmem : nb ∈ (dataDependencyKey m a).dependencies) :
    dataDependency m a b = Order.greater := by
  rw [dataDependency, dataDependencyCmp]
  have hne : ¬((dataDependencyKey m a).dependencies.length = 0 ∧
      (dataDependencyKey m b).dependencies.length = 0) := by
    rintro ⟨h0, _⟩
    rw [List.length_eq_zero] at h0
    rw [h0] at hmem
    exact List.not_mem_nil nb hmem
  rw [if_neg hne]
  have hin : nameInDeps (dataDependencyKey m b).name
      (dataDependencyKey m a).dependencies = true := by
    rw [hname, nameInDeps]
    exact List.elem_eq_true_of_mem hmem
  rw [if_pos hin]

/-- C4 witness: with mapping `a ↦ [b]` and members named `a` and `b`,
comparing `a` against `b` yields `greater`. -/
theorem c4_witness :
    dataDependency [("a", ["b"])]
        (Node.propertyDefinition (Key.identifier "a") false none)
        (Node.propertyDefinition (Key.identifier "b") false none)
      = Order.greater :=
  c4_direct_dep_greater [("a", ["b"])]
    (Node.propertyDefinition (Key.identifier "a") false none)
    (Node.propertyDefinition (Key.identifier "b") false none) "b"
    (by decide) (by decide)

/-- C5 (counterexample): for the class body `[ a = this.a ]` the returned
mapping maps `a` to a set containing `a` itself, so an entry can contain
its own key. -/
theorem c5_counterexample :
    "a" ∈ entry (extractDependencies exSelfDep) "a" := by
  decide

/-- C5 (amended): when no name is self-reachable through the raw
dependency edges (no member reads its own name and there are no cycles),
no entry of the returned mapping contains its own key. -/
theorem c5_no_self_dep_of_acyclic (n : Node)
    (hacyc : ∀ j, ¬ Relation.TransGen (relOf (rawDeps n)) j j)
    (k : String) :
    k ∉ entry (extractDependencies n) k := by
  intro hk
  exact hacyc k (mem_entry_extractDependencies.mp hk)

/-- C5 witness: the single-edge class body `[ b = this.c ]` is acyclic,
so `b`'s entry does not contain `b`. -/
theorem c5_witness : "b" ∉ entry (extractDependencies exOneEdge) "b" := by
  refine c5_no_self_dep_of_acyclic exOneEdge ?_ "b"
  have hraw : rawDeps exOneEdge = [("b", ["c"])] := by decide
  have hmem : ∀ a y : String, y ∈ entry (rawDeps exOneEdge) a → a = "b" ∧ y = "c" := by
    intro a y h
    rw [hraw] at h
    by_cases ha : a = "b"
    · subst ha
      have he : entry [("b", ["c"])] "b" = ["c"] := by decide
      rw [he] at h
      exact ⟨rfl, List.mem_singleton.mp h⟩
    · have he : entry [("b", ["c"])] a = [] := by
        rw [entry, getDeps, if_neg (fun hq => ha hq.symm)]
        rfl
      rw [he] at h
      exact absurd h (List.not_mem_nil y)
  have hchar : ∀ x y : String,
      Relation.TransGen (relOf (rawDeps exOneEdge)) x y → x = "b" ∧ y = "c" := by
    intro x y h
    induction h with
    | single h => exact hmem _ _ h
    | tail h1 h2 ih => exact ⟨ih.1, (hmem _ _ h2).2⟩
  intro j hj
  rcases hchar j j hj with ⟨h1, h2⟩
  rw [h1] at h2
  exact absurd h2 (by decide)

/-- C6: the rewrite callback returns the input node itself for every
unrecognized node kind, and for each of the three recognized
declaration-body kinds it returns a copy in which only the member-list
field is replaced (the remaining fields, represented by `extra`, are
unchanged). -/
theorem c6_rewrite_frame (sorter : Node → List Node → List Node) (n : Node) :
    (isDeclBody n = false → rewriteCallback sorter n = n) ∧
    (∀ body extra, n = Node.tsInterfaceBody body extra →
      rewriteCallback sorter n = Node.tsInterfaceBody (sorter n body) extra) ∧
    (∀ body extra, n = Node.classBody body extra →
      rewriteCallback sorter n = Node.classBody (sorter n body) extra) ∧
    (∀ mems extra, n = Node.tsTypeLiteral mems extra →
      rewriteCallback sorter n = Node.tsTypeLiteral (sorter n mems) extra) := by
  refine ⟨?_, ?_, ?_, ?_⟩
  · intro h
    cases n <;> first
      | rfl
      | (exfalso; exact absurd h (by simp [isDeclBody]))
  · rintro body extra rfl; rfl
  · rintro body extra rfl; rfl
  · rintro mems extra rfl; rfl

/-- C6 witness: an unrecognized node passes through unchanged, and a
class body keeps its `extra` field with only the member list replaced. -/
theorem c6_witness :
    rewriteCallback (fun _ l => l) Node.other = Node.other ∧
    rewriteCallback (fun _ l => l) (Node.classBody [] 5) = Node.classBody [] 5 := by
  constructor
  · exact (c6_rewrite_frame (fun _ l => l) Node.other).1 rfl
  · exact (c6_rewrite_frame (fun _ l => l) (Node.classBody [] 5)).2.2.1 [] 5 rfl

/-- C7: the name resolver on a member-like node returns, for an
identifier or private-identifier key, `none` when computed and the
identifier's name otherwise; and for a literal key, the value exactly
when it is a string. -/
theorem c7_extractName_cases (c : Bool) (v : Option Node) (s : String) (lv : LitVal) :
    (extractName (Node.propertyDefinition (Key.identifier s) c v)
        = if c then none else some s) ∧
    (extractName (Node.propertyDefinition (Key.privateIdentifier s) c v)
        = if c then none else some s) ∧
    (extractName (Node.propertyDefinition (Key.literal lv) c v)
        = match lv with | LitVal.str t => some t | _ => none) ∧
    (extractName (Node.property (Key.identifier s) c v)
        = if c then none else some s) ∧
    (extractName (Node.property (Key.privateIdentifier s) c v)
        = if c then none else some s) ∧
    (extractName (Node.property (Key.literal lv) c v)
        = match lv with | LitVal.str t => some t | _ => none) ∧
    (extractName (Node.methodDefinition (Key.identifier s) c v)
        = if c then none else some s) ∧
    (extractName (Node.methodDefinition (Key.privateIdentifier s) c v)
        = if c then none else some s) ∧
    (extractName (Node.methodDefinition (Key.literal lv) c v)
        = match lv with | LitVal.str t => some t | _ => none) := by
  refine ⟨?_, ?_, ?_, ?_, ?_, ?_, ?_, ?_, ?_⟩ <;>
    first
      | (cases c <;> rfl)
      | (cases lv <;> rfl)

/-- C8: the extractor terminates on every finite input.  The traversal
computes the same map under any fuel at least the initial queue weight,
the closure loop reaches its final value within `number of keys + 1`
passes (extra fuel changes nothing), and the final value is a true fixed
point: one more pass returns it unchanged with no modification
reported — so the source's unbounded `do ... while` loop halts there,
even on cyclic inputs. -/
theorem c8_extractor_terminates (n : Node) (extra : Nat) :
    extractLoopF (1 + nodeSize n + extra) [] [⟨none, some n⟩] = rawDeps n ∧
    closeLoop ((rawDeps n).length + 1 + extra) (rawDeps n) = extractDependencies n ∧
    closeOnce (extractDependencies n) = (extractDependencies n, false) := by
  refine ⟨?_, ?_, ?_⟩
  · have hq : qWeight [⟨none, some n⟩] = 1 + nodeSize n := rfl
    refine extractLoopF_fuel (1 + nodeSize n + extra) (1 + nodeSize n) [] [⟨none, some n⟩] ?_ ?_
    · rw [hq]; omega
    · rw [hq]
  · exact closeLoop_add_extra (rawDeps n) (nodup_keys_rawDeps n) extra
  · exact fixed_transitiveClosure (rawDeps n) (nodup_keys_rawDeps n)

/-- C10: every dependency set in the returned mapping is duplicate-free
and sorted ascending in the lexicographic string order. -/
theorem c10_entries_sorted_nodup (n : Node) (k : String) (l : List String)
    (h : getDeps (extractDependencies n) k = some l) :
    l.Nodup ∧ List.Sorted strRel l := by
  have h' : getDeps (closeLoop ((rawDeps n).length + 1) (rawDeps n)) k = some l := h
  have hsn := sorted_entry_closeLoop ((rawDeps n).length + 1) (rawDeps n)
    (by omega) (nodup_keys_rawDeps n) k l h'
  exact ⟨hsn.2, hsn.1⟩

/-- C10 witness: the closed entry of `a` in the two-step chain example is
`["b", "c"]`, which is duplicate-free and sorted. -/
theorem c10_witness :
    getDeps (extractDependencies exChainTwo) "a" = some ["b", "c"] ∧
    (["b", "c"] : List String).Nodup ∧ List.Sorted strRel ["b", "c"] :=
  ⟨by decide, c10_entries_sorted_nodup exChainTwo "a" ["b", "c"] (by decide)⟩

end SortMembers
